import Mathlib

/-!
Verification of the yo-clip tiling / batched-embedding / nearest-prototype
classification / grid-reconstruction pipeline, shallow-embedded from
`yoclip/process.py` (and, for the spacing-based grid-cell size, from the
repository's `test_grid_sizing.py`).

Modelling conventions: vectors produced by the embedding model are `List ℝ`;
pixel quantities are `ℕ`; colour arithmetic (exact in the source, which uses
rational-valued HSV parameters) is `ℚ`; Python strings handled by the
class-name save/load logic are `List Char`.  The embedding model itself is an
external collaborator of the pipeline (an opaque image-to-vector function),
so it enters as a function parameter `encode`; a preprocessing failure
(caught exception in the source) is modelled by an `Option`-valued
`preprocessFn` returning `none`.
-/

namespace YoClip

/-! ## Vector core (numpy dot / norm / normalisation as used in process.py) -/

/-- Dot product of two real vectors (`np.dot` on equal-length 1-D arrays). -/
def dot : List ℝ → List ℝ → ℝ
  | a :: as, b :: bs => a * b + dot as bs
  | _, _ => 0

/-- Sum of squares of a vector, `dot v v`. -/
def sumSq (v : List ℝ) : ℝ := dot v v

/-- Euclidean norm, `np.linalg.norm(v)` / `tensor.norm()`. -/
noncomputable def l2norm (v : List ℝ) : ℝ := Real.sqrt (sumSq v)

/-- Divide every component by the Euclidean norm:
`v / np.linalg.norm(v)`, `batch_features /= batch_features.norm(dim=-1, keepdim=True)`. -/
noncomputable def normalizeVec (v : List ℝ) : List ℝ := v.map (· / l2norm v)

/-- Maximum of a list of reals (`tensor.max()` along a row); 0 on the empty
list, which the source never feeds it. -/
noncomputable def maxList : List ℝ → ℝ
  | [] => 0
  | [x] => x
  | x :: y :: t => max x (maxList (y :: t))

/-- Index of the first occurrence of the maximum (`torch.argmax` returns the
first maximal index). -/
noncomputable def argmaxIdx : List ℝ → ℕ
  | [] => 0
  | [_] => 0
  | x :: y :: t => if x < maxList (y :: t) then argmaxIdx (y :: t) + 1 else 0

/-! ## Generic list helpers mirroring Python built-ins -/

/-- Python `min(...)` over a nonempty list of naturals (0 on empty, which the
source never produces because it validates nonemptiness first). -/
def minNatList : List ℕ → ℕ
  | [] => 0
  | [x] => x
  | x :: y :: t => min x (minNatList (y :: t))

/-- Differences of consecutive entries,
`[xs[i+1] - xs[i] for i in range(len(xs)-1)]`. -/
def consecDiffs : List ℕ → List ℕ
  | x :: y :: t => (y - x) :: consecDiffs (y :: t)
  | _ => []

/-- Python `sorted(set(xs))`: the distinct elements in ascending order. -/
def uniqueSorted {α : Type} [DecidableEq α] [LinearOrder α] (xs : List α) : List α :=
  xs.dedup.insertionSort (· ≤ ·)

/-- Python `range(0, stop, step)`.  For `step = 0` Python raises
`ValueError`; the claims below always take `step ≥ 1`. -/
def rangeStep (stop step : ℕ) : List ℕ :=
  (List.range ((stop + step - 1) / step)).map (· * step)

/-- Python slicing loop `for i in range(0, len(l), B): l[i:i+B]` — chunks of
size `B`, last one possibly smaller.  For `B = 0` Python raises; we return
`[]` there (the claims below always take `B ≥ 1`). -/
def chunkList {γ : Type} (B : ℕ) : List γ → List (List γ)
  | [] => []
  | x :: rest =>
    if _h : B = 0 then []
    else (x :: rest).take B :: chunkList B ((x :: rest).drop B)
  termination_by l => l.length
  decreasing_by
    simp only [List.length_drop, List.length_cons]
    omega

/-! ## Tile extractor: `extract_geotiff_tiles` (process.py lines 348-453) -/

/-- The raster data source contract used by the extractor: dimensions, band
count and the per-pixel validity mask (`src.read_masks(1, ...)` is nonzero
exactly where `maskValid` is `true`). -/
structure RasterModel where
  width : ℕ
  height : ℕ
  bands : ℕ
  maskValid : ℕ → ℕ → Bool

/-- Geometric metadata recorded for each surviving tile.  The source also
stores the window, affine transform, CRS and source path verbatim; those
fields are opaque pass-through data for the claims below. -/
structure TileMeta where
  tile_x : ℕ
  tile_y : ℕ
  tile_width : ℕ
  tile_height : ℕ
  row : ℕ
  col : ℕ
deriving DecidableEq

instance : Inhabited TileMeta := ⟨⟨0, 0, 0, 0, 0, 0⟩⟩

/-- Whether `np.any(mask == 0)` holds over the `w × h` window at `(x, y)`. -/
def windowHasMasked (r : RasterModel) (x y w h : ℕ) : Bool :=
  (List.range h).any fun dy => (List.range w).any fun dx => !r.maskValid (x + dx) (y + dy)

/-- Shallow embedding of `extract_geotiff_tiles`: a row-major scan with step
`tile_size - overlap`; the candidate window at `(x, y)` has actual size
`min tile_size (width - x) × min tile_size (height - y)` and is emitted only
when it is full-size, contains no masked pixel, and the final RGB shape check
passes (at least 3 bands; height and width equal to `tile_size`, which at
that point they always are).  Partial edge windows are skipped, never
padded. -/
def extract_geotiff_tiles (r : RasterModel) (tile_size overlap : ℕ) : List TileMeta :=
  ((rangeStep r.height (tile_size - overlap)).enum.map fun ry =>
    (rangeStep r.width (tile_size - overlap)).enum.filterMap fun cx =>
      if min tile_size (r.width - cx.2) < tile_size ∨
          min tile_size (r.height - ry.2) < tile_size then none
      else if windowHasMasked r cx.2 ry.2 (min tile_size (r.width - cx.2))
          (min tile_size (r.height - ry.2)) then none
      else if min 3 r.bands ≠ 3 ∨ min tile_size (r.height - ry.2) ≠ tile_size ∨
          min tile_size (r.width - cx.2) ≠ tile_size then none
      else some ⟨cx.2, ry.2, min tile_size (r.width - cx.2),
          min tile_size (r.height - ry.2), ry.1, cx.1⟩).flatten

/-! ## Grid cell sizing -/

/-- Grid cell width as computed by `_create_grid_shapefile`
(process.py lines 593-596): the minimum of the surviving tiles' own pixel
widths, `min(meta['tile_width'] for meta in tile_metadata)`. -/
def grid_cell_width (tile_metadata : List TileMeta) : ℕ :=
  minNatList (tile_metadata.map (·.tile_width))

/-- Grid cell height as computed by `_create_grid_shapefile`
(process.py lines 596): the minimum of the tiles' own pixel heights. -/
def grid_cell_height (tile_metadata : List TileMeta) : ℕ :=
  minNatList (tile_metadata.map (·.tile_height))

/-- Spacing-based grid cell width, from the repository's own
`test_grid_sizing.py` (lines 42-54, labelled there the correct "new
approach"): the minimum difference between consecutive sorted distinct tile
x-positions, falling back to the first tile's own pixel width when fewer
than 2 distinct positions exist. -/
def spacing_cell_width (tile_metadata : List TileMeta) : ℕ :=
  let xs := uniqueSorted (tile_metadata.map (·.tile_x))
  if 1 < xs.length then minNatList (consecDiffs xs)
  else (tile_metadata.headD default).tile_width

/-- Concrete fully-valid 13×13 raster; with `tile_size = 8`, `overlap = 3`
the scan step is 5, so surviving tiles sit at positions {0, 5} on each axis
while each tile is 8 pixels wide. -/
def rasterC1 : RasterModel := ⟨13, 13, 3, fun _ _ => true⟩

/-- Concrete 5×5 raster whose only invalid pixel is (0, 0). -/
def rasterC4 : RasterModel := ⟨5, 5, 3, fun x y => !(x == 0 && y == 0)⟩

/-! ## Batched embedder: `process_tiles_in_batches` (process.py lines 456-511) -/

/-- Per-item preprocessing with the per-item failure policy of lines
483-495: a failing conversion (modelled by `preprocessFn` returning `none`,
the caught exception of the source) is replaced by the zero placeholder
tensor `torch.zeros(3, 224, 224)`, keeping indices aligned. -/
def prepOrPlaceholder {α τ : Type} (preprocessFn : α → Option τ) (zeroTensor : τ) (x : α) : τ :=
  (preprocessFn x).getD zeroTensor

/-- Shallow embedding of `process_tiles_in_batches`.  `encode` is the opaque
embedding model (`model.encode_image`), a per-item image-to-vector function
applied to each row of a batch tensor; each output row is then divided by
its Euclidean norm, and batch results are stacked (`np.vstack`) in order.
Metadata is appended once per input item, success or failure.  Returns the
stacked embeddings together with the per-tile metadata list. -/
noncomputable def process_tiles_in_batches {α τ μ : Type}
    (preprocessFn : α → Option τ) (zeroTensor : τ) (encode : τ → List ℝ)
    (batch_size : ℕ) (tiles : List (α × μ)) : List (List ℝ) × List μ :=
  let batches := chunkList batch_size tiles
  ((batches.map fun b =>
      b.map fun it => normalizeVec (encode (prepOrPlaceholder preprocessFn zeroTensor it.1))).flatten,
   (batches.map fun b => b.map Prod.snd).flatten)

/-! ## Prototype builder: `create_query_vector` (process.py lines 288-346) -/

/-- Column `j` of a stacked 2-D array (`np.stack(embeddings)[:, j]`). -/
def column (embeddings : List (List ℝ)) (j : ℕ) : List ℝ :=
  embeddings.map (·.getD j 0)

/-- Elementwise arithmetic mean, `np.mean(embeddings, axis=0)`. -/
noncomputable def meanVec (embeddings : List (List ℝ)) : List ℝ :=
  (List.range (embeddings.headD []).length).map fun j =>
    (column embeddings j).sum / embeddings.length

/-- Median of a list of reals as `np.median` computes it: sort, take the
middle element (odd count) or the average of the two middle elements. -/
noncomputable def medianOfList (l : List ℝ) : ℝ :=
  let s := l.insertionSort (· ≤ ·)
  if l.length % 2 = 1 then s.getD (l.length / 2) 0
  else (s.getD (l.length / 2 - 1) 0 + s.getD (l.length / 2) 0) / 2

/-- Elementwise median, `np.median(embeddings, axis=0)`. -/
noncomputable def medianVec (embeddings : List (List ℝ)) : List ℝ :=
  (List.range (embeddings.headD []).length).map fun j =>
    medianOfList (column embeddings j)

/-- The three aggregation methods accepted by `create_query_vector` and
`create_query_vectors_auto` (an unknown method raises `ValueError`). -/
inductive AggMethod
  | mean
  | median
  | centroid

/-- Shallow embedding of the aggregation core of `create_query_vector`
(lines 328-339) and `create_query_vectors_auto` (lines 249-259): mean and
median are not renormalised; centroid normalises every input embedding,
averages, then renormalises the result. -/
noncomputable def create_query_vector (method : AggMethod) (embeddings : List (List ℝ)) :
    List ℝ :=
  match method with
  | .mean => meanVec embeddings
  | .median => medianVec embeddings
  | .centroid => normalizeVec (meanVec (embeddings.map normalizeVec))

/-! ## Nearest-prototype classification stage of `run_process`
(process.py lines 1119-1175) -/

/-- One classification result record (the source also copies the tile's
geometric metadata fields verbatim into the record). -/
structure ClassResult where
  tile_id : ℕ
  best_class : String
  query_similarity : ℝ

instance : Inhabited ClassResult := ⟨⟨0, "", 0⟩⟩

/-- One row of the similarity matrix `sims = tile_feats @ proto_matrix.T`. -/
def simRow (protoM : List (List ℝ)) (t : List ℝ) : List ℝ :=
  protoM.map fun p => dot t p

/-- Shallow embedding of the classification stage of `run_process`:
prototypes are stacked in `query_class_names` order and re-normalised
(line 1128), tile embeddings are re-normalised (line 1138), the similarity
matrix is the pairwise dot product, and for every tile index (the loop
`for tile_idx in range(len(tile_embeddings))`) a result is produced with
the argmax class and the maximal similarity. -/
noncomputable def run_process_classify (query_vectors : List (String × List ℝ))
    (tile_embeddings : List (List ℝ)) : List ClassResult :=
  let protoM := query_vectors.map fun q => normalizeVec q.2
  let feats := tile_embeddings.map normalizeVec
  (List.range tile_embeddings.length).map fun i =>
    let row := simRow protoM (feats.getD i [])
    { tile_id := i,
      best_class := (query_vectors.getD (argmaxIdx row) default).1,
      query_similarity := maxList row }

/-! ## Class colour assignment: `_generate_class_colors`
(process.py lines 811-846) with the alphabetically sorted distinct class
names of `_create_grid_shapefile` (line 567) -/

/-- Exact embedding of `colorsys.hsv_to_rgb` over the rationals. -/
def hsvToRgb (h s v : ℚ) : ℚ × ℚ × ℚ :=
  if s = 0 then (v, v, v)
  else
    let i0 : ℤ := ⌊h * 6⌋
    let f : ℚ := h * 6 - (i0 : ℚ)
    let p : ℚ := v * (1 - s)
    let q : ℚ := v * (1 - s * f)
    let t : ℚ := v * (1 - s * (1 - f))
    let i := i0 % 6
    if i = 0 then (v, t, p)
    else if i = 1 then (q, v, p)
    else if i = 2 then (p, v, t)
    else if i = 3 then (p, q, v)
    else if i = 4 then (t, p, v)
    else (v, p, q)

/-- The palette of `generate_color_palette(n_colors)`: hue `i / n`,
saturation 0.8, value 0.9, scaled to 0-255 by Python `int` truncation. -/
def generateColorPalette (n : ℕ) : List (ℤ × ℤ × ℤ) :=
  (List.range n).map fun i =>
    let c := hsvToRgb ((i : ℚ) / (n : ℚ)) (4 / 5) (9 / 10)
    (⌊c.1 * 255⌋, ⌊c.2.1 * 255⌋, ⌊c.2.2 * 255⌋)

/-- Embedding of `_generate_class_colors`: `dict(zip(unique_classes,
class_colors))`, as an association list keyed by the (already sorted,
duplicate-free) class names. -/
def generate_class_colors (unique_classes : List String) : List (String × (ℤ × ℤ × ℤ)) :=
  unique_classes.zip (generateColorPalette unique_classes.length)

/-- The full class-to-colour mapping built by `_create_grid_shapefile` when
no external colour table is given: generated colours over
`sorted(list(set(result['best_class'] for result in results)))`. -/
def class_color_mapping (class_names : List String) : List (String × (ℤ × ℤ × ℤ)) :=
  generate_class_colors (uniqueSorted class_names)

/-! ## Class-name save/load round trip (process.py lines 261-263 and
1042-1066) -/

/-- Python `s.replace(c, d)` for single characters. -/
def pyReplaceChar (c d : Char) (s : List Char) : List Char :=
  s.map fun a => if a = c then d else a

/-- Fuel-indexed worker for Python `s.replace(pat, rep)`: left-to-right
scan replacing non-overlapping occurrences.  Structural in the fuel, which
callers set to the length of the string (always sufficient for a nonempty
pattern). -/
def pyReplaceAux (pat rep : List Char) : ℕ → List Char → List Char
  | _, [] => []
  | 0, s => s
  | fuel + 1, a :: rest =>
    if pat ≠ [] ∧ pat.isPrefixOf (a :: rest)
    then rep ++ pyReplaceAux pat rep fuel ((a :: rest).drop pat.length)
    else a :: pyReplaceAux pat rep fuel rest

/-- Python `s.replace(pat, rep)` for a nonempty pattern. -/
def pyReplace (pat rep s : List Char) : List Char := pyReplaceAux pat rep s.length s

/-- Whether `pat` occurs as a contiguous subsequence (Python `pat in s`). -/
def containsSeq (pat : List Char) : List Char → Bool
  | [] => pat.isPrefixOf ([] : List Char)
  | a :: rest => pat.isPrefixOf (a :: rest) || containsSeq pat rest

/-- Safe file-name form of a class name (process.py line 262):
`class_name.replace(';', '_').replace('/', '_').replace(' ', '_')`. -/
def safe_class_name (class_name : List Char) : List Char :=
  pyReplaceChar ' ' '_' (pyReplaceChar '/' '_' (pyReplaceChar ';' '_' class_name))

/-- The characters of the literal `"query_"`. -/
def queryTag : List Char := ['q', 'u', 'e', 'r', 'y', '_']

/-- Stem of the saved prototype file `query_{safe_class_name}.npy`. -/
def query_file_stem (class_name : List Char) : List Char :=
  queryTag ++ safe_class_name class_name

/-- Class-name recovery at load time (run_process lines 1046 and 1065):
`npy_file.stem.replace('query_', '').replace('_', ';')`. -/
def class_name_of_stem (stem : List Char) : List Char :=
  pyReplaceChar '_' ';' (pyReplace queryTag [] stem)

/-- Save a class name as a prototype file stem, then recover it. -/
def save_load_class_name (class_name : List Char) : List Char :=
  class_name_of_stem (query_file_stem class_name)

/-- The combined per-character effect of the three sanitising replaces. -/
def sanitizeChar (c : Char) : Char :=
  if c = ';' ∨ c = '/' ∨ c = ' ' then '_' else c

/-! ## Supporting lemmas: vector arithmetic -/

theorem dot_nil_left (b : List ℝ) : dot [] b = 0 := by cases b <;> rfl

theorem sumSq_nonneg (v : List ℝ) : 0 ≤ sumSq v := by
  induction v with
  | nil => simp [sumSq, dot]
  | cons x xs ih =>
      have hx : sumSq (x :: xs) = x * x + sumSq xs := rfl
      rw [hx]
      nlinarith [mul_self_nonneg x]

theorem l2norm_nonneg (v : List ℝ) : 0 ≤ l2norm v := Real.sqrt_nonneg _

/-- Componentwise division factors out of a dot product. -/
theorem dot_map_div (a b : List ℝ) (c k : ℝ) :
    dot (a.map (· / c)) (b.map (· / k)) = dot a b / (c * k) := by
  induction a generalizing b with
  | nil => simp [dot_nil_left, dot]
  | cons x xs ih =>
      cases b with
      | nil => simp [dot]
      | cons y ys =>
          simp only [List.map_cons, dot, ih]
          rw [div_mul_div_comm, add_div]

theorem sumSq_normalizeVec (v : List ℝ) :
    sumSq (normalizeVec v) = sumSq v / (l2norm v * l2norm v) := by
  unfold normalizeVec sumSq
  exact dot_map_div v v (l2norm v) (l2norm v)

/-- Normalising a vector of nonzero norm yields a unit vector. -/
theorem l2norm_normalizeVec (v : List ℝ) (h : l2norm v ≠ 0) :
    l2norm (normalizeVec v) = 1 := by
  have hS : sumSq v ≠ 0 := by
    intro h0
    exact h (by simp [l2norm, h0])
  unfold l2norm
  rw [sumSq_normalizeVec]
  have hmul : l2norm v * l2norm v = sumSq v := Real.mul_self_sqrt (sumSq_nonneg v)
  rw [hmul, div_self hS, Real.sqrt_one]

/-- The list dot product as a `Finset` sum over indices, for equal lengths. -/
theorem dot_eq_sum_getD (a b : List ℝ) (h : a.length = b.length) :
    dot a b = ∑ i in Finset.range a.length, a.getD i 0 * b.getD i 0 := by
  induction a generalizing b with
  | nil => simp [dot_nil_left]
  | cons x xs ih =>
      cases b with
      | nil => simp at h
      | cons y ys =>
          have h' : xs.length = ys.length := by simpa using h
          simp only [dot, List.length_cons]
          rw [Finset.sum_range_succ']
          simp only [List.getD_cons_succ, List.getD_cons_zero]
          rw [ih ys h']
          ring

theorem sumSq_eq_sum_getD (a : List ℝ) :
    sumSq a = ∑ i in Finset.range a.length, a.getD i 0 ^ 2 := by
  unfold sumSq
  rw [dot_eq_sum_getD a a rfl]
  exact Finset.sum_congr rfl fun i _ => by ring

/-- Cauchy–Schwarz for the list dot product (equal lengths). -/
theorem abs_dot_le (a b : List ℝ) (h : a.length = b.length) :
    |dot a b| ≤ l2norm a * l2norm b := by
  have hb : (∑ i in Finset.range a.length, b.getD i 0 ^ 2)
      = ∑ i in Finset.range b.length, b.getD i 0 ^ 2 := by rw [h]
  have upper : dot a b ≤ l2norm a * l2norm b := by
    rw [dot_eq_sum_getD a b h]
    unfold l2norm
    rw [sumSq_eq_sum_getD, sumSq_eq_sum_getD]
    calc ∑ i in Finset.range a.length, a.getD i 0 * b.getD i 0
        ≤ Real.sqrt (∑ i in Finset.range a.length, a.getD i 0 ^ 2) *
            Real.sqrt (∑ i in Finset.range a.length, b.getD i 0 ^ 2) :=
          Real.sum_mul_le_sqrt_mul_sqrt _ _ _
      _ = _ := by rw [hb]
  have lower : -(l2norm a * l2norm b) ≤ dot a b := by
    have hcs := Real.sum_mul_le_sqrt_mul_sqrt (Finset.range a.length)
        (fun i => -(a.getD i 0)) (fun i => b.getD i 0)
    rw [neg_le]
    rw [dot_eq_sum_getD a b h]
    unfold l2norm
    rw [sumSq_eq_sum_getD, sumSq_eq_sum_getD]
    calc -(∑ i in Finset.range a.length, a.getD i 0 * b.getD i 0)
        = ∑ i in Finset.range a.length, -(a.getD i 0) * b.getD i 0 := by
          rw [← Finset.sum_neg_distrib]
          exact Finset.sum_congr rfl fun i _ => by ring
      _ ≤ Real.sqrt (∑ i in Finset.range a.length, (-(a.getD i 0)) ^ 2) *
            Real.sqrt (∑ i in Finset.range a.length, b.getD i 0 ^ 2) := hcs
      _ = Real.sqrt (∑ i in Finset.range a.length, a.getD i 0 ^ 2) *
            Real.sqrt (∑ i in Finset.range b.length, b.getD i 0 ^ 2) := by
          rw [hb]
          congr 2
          exact Finset.sum_congr rfl fun i _ => by ring
  exact abs_le.mpr ⟨lower, upper⟩

/-- Cosine similarity of two normalised vectors lies in `[-1, 1]`. -/
theorem abs_dot_normalize_le_one (a b : List ℝ) (h : a.length = b.length)
    (ha : l2norm a ≠ 0) (hb : l2norm b ≠ 0) :
    |dot (normalizeVec a) (normalizeVec b)| ≤ 1 := by
  have hpa : 0 < l2norm a := lt_of_le_of_ne (l2norm_nonneg a) (Ne.symm ha)
  have hpb : 0 < l2norm b := lt_of_le_of_ne (l2norm_nonneg b) (Ne.symm hb)
  have hpos : 0 < l2norm a * l2norm b := mul_pos hpa hpb
  unfold normalizeVec
  rw [dot_map_div, abs_div, abs_of_pos hpos, div_le_one hpos]
  exact abs_dot_le a b h

/-! ## Supporting lemmas: maxList and argmaxIdx -/

theorem le_maxList {l : List ℝ} {x : ℝ} (hx : x ∈ l) : x ≤ maxList l := by
  induction l with
  | nil => cases hx
  | cons a t ih =>
      cases t with
      | nil =>
          rcases List.mem_singleton.mp hx with rfl
          exact le_of_eq rfl
      | cons b t' =>
          rcases List.mem_cons.mp hx with rfl | hmem
          · exact le_max_left _ _
          · exact le_trans (ih hmem) (le_max_right _ _)

theorem maxList_mem {l : List ℝ} (h : l ≠ []) : maxList l ∈ l := by
  induction l with
  | nil => exact absurd rfl h
  | cons a t ih =>
      cases t with
      | nil => simp [maxList]
      | cons b t' =>
          rcases max_cases a (maxList (b :: t')) with ⟨he, _⟩ | ⟨he, _⟩
          · simp [maxList, he]
          · have : maxList (a :: b :: t') = maxList (b :: t') := he
            rw [this]
            exact List.mem_cons_of_mem _ (ih (List.cons_ne_nil _ _))

theorem argmaxIdx_lt_length {l : List ℝ} (h : l ≠ []) : argmaxIdx l < l.length := by
  induction l with
  | nil => exact absurd rfl h
  | cons a t ih =>
      cases t with
      | nil => simp [argmaxIdx]
      | cons b t' =>
          by_cases hlt : a < maxList (b :: t')
          · have hih := ih (List.cons_ne_nil _ _)
            simp only [List.length_cons] at hih ⊢
            simp only [argmaxIdx, if_pos hlt]
            omega
          · simp [argmaxIdx, if_neg hlt]

theorem getD_argmaxIdx {l : List ℝ} (h : l ≠ []) :
    l.getD (argmaxIdx l) 0 = maxList l := by
  induction l with
  | nil => exact absurd rfl h
  | cons a t ih =>
      cases t with
      | nil => simp [argmaxIdx, maxList]
      | cons b t' =>
          by_cases hlt : a < maxList (b :: t')
          · have hih := ih (List.cons_ne_nil _ _)
            simp only [argmaxIdx, if_pos hlt, maxList, List.getD_cons_succ]
            rw [hih]
            exact (max_eq_right (le_of_lt hlt)).symm
          · simp only [argmaxIdx, if_neg hlt, maxList, List.getD_cons_zero]
            exact (max_eq_left (not_lt.mp hlt)).symm

/-! ## Supporting lemmas: list indexing -/

theorem getD_of_lt_map {β γ : Type} (f : β → γ) (l : List β) (i : ℕ)
    (h : i < l.length) (d : γ) (d' : β) : (l.map f).getD i d = f (l.getD i d') := by
  rw [List.getD_eq_getElem l d' h]
  rw [List.getD_eq_getElem (l.map f) d (by simpa using h)]
  simp

theorem getD_range_map {γ : Type} (f : ℕ → γ) (n i : ℕ) (h : i < n) (d : γ) :
    ((List.range n).map f).getD i d = f i := by
  have h1 : (List.range n).getD i 0 = i := by
    rw [List.getD_eq_getElem (List.range n) 0 (by simpa using h)]
    simp
  rw [getD_of_lt_map f (List.range n) i (by simpa using h) d 0, h1]

theorem getD_mem_of_lt {β : Type} (l : List β) (i : ℕ) (h : i < l.length) (d : β) :
    l.getD i d ∈ l := by
  rw [List.getD_eq_getElem l d h]
  exact List.getElem_mem _

/-! ## Supporting lemmas: batching -/

/-- Concatenating the batches gives back the input, for any batch size ≥ 1. -/
theorem chunkList_flatten {γ : Type} (B : ℕ) (hB : 1 ≤ B) (l : List γ) :
    (chunkList B l).flatten = l := by
  have H : ∀ n (l : List γ), l.length ≤ n → (chunkList B l).flatten = l := by
    intro n
    induction n with
    | zero =>
        intro l hl
        cases l with
        | nil => simp [chunkList]
        | cons x rest => simp at hl
    | succ n ih =>
        intro l hl
        cases l with
        | nil => simp [chunkList]
        | cons x rest =>
            have hB0 : ¬B = 0 := by omega
            rw [chunkList, dif_neg hB0, List.flatten_cons]
            rw [ih ((x :: rest).drop B) (by
              simp only [List.length_cons] at hl
              simp only [List.length_drop, List.length_cons]
              omega)]
            exact List.take_append_drop B (x :: rest)
  exact H l.length l le_rfl

/-- Normal form of the batched embedder: for any batch size ≥ 1 it is the
per-item map over the input sequence. -/
theorem process_tiles_eq_map {α τ μ : Type} (pre : α → Option τ) (z : τ)
    (enc : τ → List ℝ) (B : ℕ) (hB : 1 ≤ B) (tiles : List (α × μ)) :
    process_tiles_in_batches pre z enc B tiles =
      (tiles.map fun it => normalizeVec (enc (prepOrPlaceholder pre z it.1)),
       tiles.map Prod.snd) := by
  unfold process_tiles_in_batches
  simp only [Prod.mk.injEq]
  constructor
  · rw [← List.map_flatten, chunkList_flatten B hB]
  · rw [← List.map_flatten, chunkList_flatten B hB]

/-! ## C6 — batch-size invariance of the embedder -/

/-- C6: for every ordered tile sequence and any two batch sizes ≥ 1 the
batched embedder produces identical output (embeddings and metadata), in
the same order: batching affects only grouping. -/
theorem batch_size_invariance {α τ μ : Type} (pre : α → Option τ) (z : τ)
    (enc : τ → List ℝ) (B1 B2 : ℕ) (h1 : 1 ≤ B1) (h2 : 1 ≤ B2)
    (tiles : List (α × μ)) :
    process_tiles_in_batches pre z enc B1 tiles
      = process_tiles_in_batches pre z enc B2 tiles := by
  rw [process_tiles_eq_map pre z enc B1 h1 tiles, process_tiles_eq_map pre z enc B2 h2 tiles]

theorem batch_size_invariance_witness :
    process_tiles_in_batches (fun _ : Unit => some ()) () (fun _ => [(1 : ℝ)]) 1 [((), ())]
      = process_tiles_in_batches (fun _ : Unit => some ()) () (fun _ => [(1 : ℝ)]) 2
          [((), ())] :=
  batch_size_invariance (fun _ : Unit => some ()) () (fun _ => [(1 : ℝ)]) 1 2
    (by decide) (by decide) [((), ())]

/-! ## C7 — positional alignment and placeholder substitution -/

/-- C7: the batched embedder returns exactly one embedding and one metadata
record per input, positionally aligned; a failed preprocessing at position
`i` yields the embedding of the zero placeholder there, with the metadata
still recorded at position `i`. -/
theorem embedder_index_alignment {α τ μ : Type} (pre : α → Option τ) (z : τ)
    (enc : τ → List ℝ) (B : ℕ) (hB : 1 ≤ B) (tiles : List (α × μ))
    (dp : α × μ) (dm : μ) :
    (process_tiles_in_batches pre z enc B tiles).1.length = tiles.length ∧
    (process_tiles_in_batches pre z enc B tiles).2.length = tiles.length ∧
    ∀ i, i < tiles.length →
      (process_tiles_in_batches pre z enc B tiles).2.getD i dm = (tiles.getD i dp).2 ∧
      (process_tiles_in_batches pre z enc B tiles).1.getD i []
        = normalizeVec (enc (prepOrPlaceholder pre z (tiles.getD i dp).1)) ∧
      (pre (tiles.getD i dp).1 = none →
        (process_tiles_in_batches pre z enc B tiles).1.getD i []
          = normalizeVec (enc z)) := by
  rw [process_tiles_eq_map pre z enc B hB tiles]
  refine ⟨by simp, by simp, fun i hi => ⟨?_, ?_, ?_⟩⟩
  · rw [getD_of_lt_map Prod.snd tiles i hi dm dp]
  · rw [getD_of_lt_map (fun it => normalizeVec (enc (prepOrPlaceholder pre z it.1)))
      tiles i hi [] dp]
  · intro hfail
    rw [getD_of_lt_map (fun it => normalizeVec (enc (prepOrPlaceholder pre z it.1)))
      tiles i hi [] dp]
    simp only [prepOrPlaceholder, hfail, Option.getD_none]

theorem embedder_index_alignment_witness :
    (process_tiles_in_batches (fun _ : Unit => (none : Option Unit)) ()
        (fun _ => [(1 : ℝ), 0]) 1 [((), ())]).1.getD 0 []
      = normalizeVec [(1 : ℝ), 0] := by
  have h := (embedder_index_alignment (fun _ : Unit => (none : Option Unit)) ()
      (fun _ => [(1 : ℝ), 0]) 1 (by decide) [((), ())] ((), ()) ()).2.2 0 (by decide)
  exact h.2.2 rfl

/-! ## C5 — corrected: outputs are divided by their norm, but a zero norm
is not detected (no explicit failure; the source simply divides) -/

/-- Counterexample to C5 as stated: with a model returning the zero vector,
the embedder returns normally and its output is the zero vector (norm 0,
not unit length); no error condition is raised on the zero-norm path of
`batch_features /= batch_features.norm(...)`. -/
theorem zero_norm_embedding_no_error :
    (process_tiles_in_batches (fun _ : Unit => some ()) () (fun _ => [(0 : ℝ), 0]) 1
        [((), ())]).1 = [[(0 : ℝ), 0]] ∧
    l2norm [(0 : ℝ), 0] = 0 ∧ l2norm [(0 : ℝ), 0] ≠ 1 := by
  have hz : l2norm [(0 : ℝ), 0] = 0 := by
    have hs : sumSq [(0 : ℝ), 0] = 0 := by norm_num [sumSq, dot]
    rw [l2norm, hs, Real.sqrt_zero]
  refine ⟨?_, hz, by rw [hz]; norm_num⟩
  rw [process_tiles_eq_map _ _ _ 1 le_rfl]
  simp [normalizeVec]

/-- C5 as amended: every output vector of the batched embedder is the
model's output divided componentwise by its Euclidean norm; when that norm
is nonzero the stored vector is unit length.  (A zero norm is not detected —
see the counterexample — so no error-condition clause holds.) -/
theorem embedder_divides_by_norm {α τ μ : Type} (pre : α → Option τ) (z : τ)
    (enc : τ → List ℝ) (B : ℕ) (hB : 1 ≤ B) (tiles : List (α × μ)) (dp : α × μ) :
    ∀ i, i < tiles.length →
      (process_tiles_in_batches pre z enc B tiles).1.getD i []
          = (enc (prepOrPlaceholder pre z (tiles.getD i dp).1)).map
              (· / l2norm (enc (prepOrPlaceholder pre z (tiles.getD i dp).1))) ∧
      (l2norm (enc (prepOrPlaceholder pre z (tiles.getD i dp).1)) ≠ 0 →
        l2norm ((process_tiles_in_batches pre z enc B tiles).1.getD i []) = 1) := by
  intro i hi
  have hg : (process_tiles_in_batches pre z enc B tiles).1.getD i []
      = normalizeVec (enc (prepOrPlaceholder pre z (tiles.getD i dp).1)) := by
    rw [process_tiles_eq_map pre z enc B hB tiles]
    rw [getD_of_lt_map (fun it => normalizeVec (enc (prepOrPlaceholder pre z it.1)))
      tiles i hi [] dp]
  refine ⟨hg, fun hn => ?_⟩
  rw [hg]
  exact l2norm_normalizeVec _ hn

theorem embedder_divides_by_norm_witness :
    l2norm ((process_tiles_in_batches (fun _ : Unit => some ()) ()
        (fun _ => [(1 : ℝ), 0]) 1 [((), ())]).1.getD 0 []) = 1 := by
  have hone : l2norm [(1 : ℝ), 0] = 1 := by
    have hs : sumSq [(1 : ℝ), 0] = 1 := by norm_num [sumSq, dot]
    rw [l2norm, hs, Real.sqrt_one]
  have h := (embedder_divides_by_norm (fun _ : Unit => some ()) ()
      (fun _ => [(1 : ℝ), 0]) 1 (by decide) [((), ())] ((), ())) 0 (by decide)
  exact h.2 (by rw [hone]; norm_num)

/-! ## Supporting lemmas: tile extraction -/

/-- Every tile in the extractor's output satisfies the emission conditions
of the filter: its recorded size is the candidate window size, that size is
at least the nominal tile size, and its window is completely unmasked. -/
theorem extract_mem_spec (r : RasterModel) (S O : ℕ) (t : TileMeta)
    (ht : t ∈ extract_geotiff_tiles r S O) :
    t.tile_width = min S (r.width - t.tile_x) ∧
    t.tile_height = min S (r.height - t.tile_y) ∧
    S ≤ t.tile_width ∧ S ≤ t.tile_height ∧
    windowHasMasked r t.tile_x t.tile_y t.tile_width t.tile_height = false := by
  unfold extract_geotiff_tiles at ht
  simp only [List.mem_flatten, List.mem_map] at ht
  obtain ⟨l, ⟨ry, hry, rfl⟩, htl⟩ := ht
  rw [List.mem_filterMap] at htl
  obtain ⟨cx, hcx, hf⟩ := htl
  by_cases h1 : min S (r.width - cx.2) < S ∨ min S (r.height - ry.2) < S
  · rw [if_pos h1] at hf; cases hf
  rw [if_neg h1] at hf
  by_cases h2 : windowHasMasked r cx.2 ry.2 (min S (r.width - cx.2))
      (min S (r.height - ry.2)) = true
  · rw [if_pos h2] at hf; cases hf
  rw [if_neg h2] at hf
  by_cases h3 : min 3 r.bands ≠ 3 ∨ min S (r.height - ry.2) ≠ S ∨
      min S (r.width - cx.2) ≠ S
  · rw [if_pos h3] at hf; cases hf
  rw [if_neg h3] at hf
  have hm : windowHasMasked r cx.2 ry.2 (min S (r.width - cx.2))
      (min S (r.height - ry.2)) = false := by
    simpa using h2
  push_neg at h1
  obtain rfl := Option.some.inj hf
  exact ⟨rfl, rfl, h1.1, h1.2, hm⟩

/-! ## C4 — surviving tiles are full-size and unmasked; others rejected -/

/-- C4: with overlap below the tile size, every emitted tile is exactly
`S × S` and contains no masked pixel, and every candidate window of the scan
whose actual width or height falls short of `S`, or that contains a masked
pixel, emits no tile (rejected, never padded). -/
theorem extract_tiles_full_size_unmasked (r : RasterModel) (S O : ℕ) (_hO : O < S) :
    (∀ t ∈ extract_geotiff_tiles r S O,
        t.tile_width = S ∧ t.tile_height = S ∧
        windowHasMasked r t.tile_x t.tile_y S S = false) ∧
    (∀ x ∈ rangeStep r.width (S - O), ∀ y ∈ rangeStep r.height (S - O),
        (min S (r.width - x) < S ∨ min S (r.height - y) < S ∨
          windowHasMasked r x y (min S (r.width - x)) (min S (r.height - y)) = true) →
        ∀ t ∈ extract_geotiff_tiles r S O, ¬(t.tile_x = x ∧ t.tile_y = y)) := by
  have main : ∀ t ∈ extract_geotiff_tiles r S O,
      t.tile_width = S ∧ t.tile_height = S ∧
      windowHasMasked r t.tile_x t.tile_y S S = false ∧
      t.tile_width = min S (r.width - t.tile_x) ∧
      t.tile_height = min S (r.height - t.tile_y) := by
    intro t ht
    obtain ⟨he1, he2, hle1, hle2, hm⟩ := extract_mem_spec r S O t ht
    have hw : t.tile_width = S := le_antisymm (he1 ▸ min_le_left _ _) hle1
    have hh : t.tile_height = S := le_antisymm (he2 ▸ min_le_left _ _) hle2
    have hm' := hm
    rw [hw, hh] at hm'
    exact ⟨hw, hh, hm', he1, he2⟩
  refine ⟨fun t ht => ⟨(main t ht).1, (main t ht).2.1, (main t ht).2.2.1⟩, ?_⟩
  intro x hx y hy hbad t ht hxy
  obtain ⟨hw, hh, hm, he1, he2⟩ := main t ht
  obtain ⟨hxx, hyy⟩ := hxy
  subst hxx
  subst hyy
  rcases hbad with hb | hb | hb
  · rw [← he1, hw] at hb
    exact lt_irrefl _ hb
  · rw [← he2, hh] at hb
    exact lt_irrefl _ hb
  · rw [← he1, ← he2, hw, hh] at hb
    simp [hm] at hb

theorem extract_tiles_full_size_unmasked_witness :
    (0 : ℕ) < 2 ∧
    ((⟨2, 0, 2, 2, 0, 1⟩ : TileMeta).tile_width = 2 ∧
      (⟨2, 0, 2, 2, 0, 1⟩ : TileMeta).tile_height = 2 ∧
      windowHasMasked rasterC4 2 0 2 2 = false) ∧
    (∀ t ∈ extract_geotiff_tiles rasterC4 2 0, ¬(t.tile_x = 0 ∧ t.tile_y = 0)) :=
  ⟨by decide,
   (extract_tiles_full_size_unmasked rasterC4 2 0 (by decide)).1 ⟨2, 0, 2, 2, 0, 1⟩
     (by decide),
   (extract_tiles_full_size_unmasked rasterC4 2 0 (by decide)).2 0 (by decide) 0
     (by decide) (by decide)⟩

/-! ## C1 — code bug: grid cell size comes from tile pixel widths, not from
the observed spacing between tile positions -/

/-- C1 evidence: for a fully valid 13×13 raster with tile size 8 and
overlap 3, the surviving tiles occupy two distinct x-positions {0, 5}
(spacing 5) while each tile is 8 pixels wide.  `_create_grid_shapefile`
computes a cell width of 8 (the minimum tile pixel width); the spacing rule
of the claim — implemented in the repository's `test_grid_sizing.py` and
required by the specification — gives 5.  The code thus contradicts the
claim whenever spacing and tile size diverge. -/
theorem grid_cell_size_ignores_spacing :
    (uniqueSorted ((extract_geotiff_tiles rasterC1 8 3).map (·.tile_x))).length = 2 ∧
    grid_cell_width (extract_geotiff_tiles rasterC1 8 3) = 8 ∧
    grid_cell_height (extract_geotiff_tiles rasterC1 8 3) = 8 ∧
    spacing_cell_width (extract_geotiff_tiles rasterC1 8 3) = 5 ∧
    (8 : ℕ) ≠ 5 := by decide

/-! ## C2 — full-coverage nearest-prototype classification -/

/-- C2: with at least one prototype, the classification stage produces
exactly one result per tile embedding, in tile order (`tile_id = i`), and
the result at index `i` carries the class of a prototype of maximal cosine
similarity together with that maximal similarity; no result is dropped by
any top-K filtering. -/
theorem classifier_full_coverage_argmax (qv : List (String × List ℝ))
    (te : List (List ℝ)) (hM : qv ≠ []) :
    (run_process_classify qv te).length = te.length ∧
    ∀ i, i < te.length →
      ((run_process_classify qv te).getD i default).tile_id = i ∧
      ∃ j, j < qv.length ∧
        ((run_process_classify qv te).getD i default).best_class = (qv.getD j default).1 ∧
        ((run_process_classify qv te).getD i default).query_similarity
          = dot (normalizeVec (te.getD i [])) (normalizeVec ((qv.getD j default).2)) ∧
        ∀ k, k < qv.length →
          dot (normalizeVec (te.getD i [])) (normalizeVec ((qv.getD k default).2))
            ≤ ((run_process_classify qv te).getD i default).query_similarity := by
  constructor
  · simp [run_process_classify]
  intro i hi
  have hgetD : (run_process_classify qv te).getD i default =
      { tile_id := i,
        best_class := (qv.getD (argmaxIdx (simRow (qv.map fun q => normalizeVec q.2)
            ((te.map normalizeVec).getD i []))) default).1,
        query_similarity := maxList (simRow (qv.map fun q => normalizeVec q.2)
            ((te.map normalizeVec).getD i [])) } := by
    unfold run_process_classify
    exact getD_range_map _ te.length i hi default
  have hfeat : (te.map normalizeVec).getD i [] = normalizeVec (te.getD i []) :=
    getD_of_lt_map normalizeVec te i hi [] []
  set row := simRow (qv.map fun q => normalizeVec q.2) ((te.map normalizeVec).getD i [])
    with hrow
  have hrow_eq : row = qv.map fun q =>
      dot (normalizeVec (te.getD i [])) (normalizeVec q.2) := by
    rw [hrow, simRow, List.map_map, hfeat]
    rfl
  have hrow_len : row.length = qv.length := by rw [hrow_eq]; simp
  have hrow_ne : row ≠ [] := by
    rw [hrow_eq]
    intro hc
    exact hM (List.map_eq_nil_iff.mp hc)
  have hj : argmaxIdx row < qv.length := by
    rw [← hrow_len]
    exact argmaxIdx_lt_length hrow_ne
  refine ⟨by rw [hgetD], argmaxIdx row, hj, by rw [hgetD], ?_, ?_⟩
  · rw [hgetD]
    show maxList row = _
    have hA := getD_of_lt_map (fun q => dot (normalizeVec (te.getD i []))
        (normalizeVec q.2)) qv (argmaxIdx row) hj 0 default
    rw [← hrow_eq] at hA
    rw [← getD_argmaxIdx hrow_ne]
    exact hA
  · intro k hk
    rw [hgetD]
    show _ ≤ maxList row
    have hB := getD_of_lt_map (fun q => dot (normalizeVec (te.getD i []))
        (normalizeVec q.2)) qv k hk 0 default
    rw [← hrow_eq] at hB
    have hmem := getD_mem_of_lt row k (by rw [hrow_len]; exact hk) 0
    have hle := le_maxList hmem
    rwa [hB] at hle

theorem classifier_full_coverage_argmax_witness :
    (run_process_classify [("a", [(1 : ℝ), 0]), ("b", [0, 1])] [[(1 : ℝ), 0]]).length = 1 ∧
    ((run_process_classify [("a", [(1 : ℝ), 0]), ("b", [0, 1])]
        [[(1 : ℝ), 0]]).getD 0 default).tile_id = 0 := by
  have h := classifier_full_coverage_argmax [("a", [(1 : ℝ), 0]), ("b", [0, 1])]
    [[(1 : ℝ), 0]] (List.cons_ne_nil _ _)
  exact ⟨h.1, (h.2 0 (by norm_num)).1⟩

/-! ## C8 — prototypes re-normalised at classification time; similarity
scores bounded by [-1, 1] -/

/-- C8: when every tile embedding and every stored prototype has nonzero
norm (and all share one dimensionality), classification re-normalises each
prototype to unit length regardless of its stored normalisation state, and
every recorded similarity score lies in `[-1, 1]`. -/
theorem proto_renormalized_scores_in_unit_interval (qv : List (String × List ℝ))
    (te : List (List ℝ)) (d : ℕ) (hM : qv ≠ [])
    (hdt : ∀ t ∈ te, t.length = d)
    (hdp : ∀ q ∈ qv, q.2.length = d)
    (hnt : ∀ t ∈ te, l2norm t ≠ 0)
    (hnp : ∀ q ∈ qv, l2norm q.2 ≠ 0) :
    (∀ q ∈ qv, l2norm (normalizeVec q.2) = 1) ∧
    ∀ r ∈ run_process_classify qv te,
      -1 ≤ r.query_similarity ∧ r.query_similarity ≤ 1 := by
  refine ⟨fun q hq => l2norm_normalizeVec q.2 (hnp q hq), ?_⟩
  intro r hr
  unfold run_process_classify at hr
  simp only [List.mem_map, List.mem_range] at hr
  obtain ⟨i, hi, rfl⟩ := hr
  simp only
  have hfeat : (te.map normalizeVec).getD i [] = normalizeVec (te.getD i []) :=
    getD_of_lt_map normalizeVec te i hi [] []
  set row := simRow (qv.map fun q => normalizeVec q.2) ((te.map normalizeVec).getD i [])
    with hrow
  have hrow_eq : row = qv.map fun q =>
      dot (normalizeVec (te.getD i [])) (normalizeVec q.2) := by
    rw [hrow, simRow, List.map_map, hfeat]
    rfl
  have hrow_ne : row ≠ [] := by
    rw [hrow_eq]
    intro hc
    exact hM (List.map_eq_nil_iff.mp hc)
  have hmem := maxList_mem hrow_ne
  rw [hrow_eq] at hmem
  simp only [List.mem_map] at hmem
  obtain ⟨q, hq, hval⟩ := hmem
  have hti : te.getD i [] ∈ te := getD_mem_of_lt te i hi []
  have hlen : (te.getD i []).length = q.2.length := by
    rw [hdt _ hti, hdp q hq]
  have habs := abs_dot_normalize_le_one (te.getD i []) q.2 hlen (hnt _ hti) (hnp q hq)
  rw [hval] at habs
  rw [← hrow_eq] at habs
  exact ⟨neg_le_of_abs_le habs, le_of_abs_le habs⟩

theorem proto_renormalized_scores_in_unit_interval_witness :
    l2norm (normalizeVec [(2 : ℝ), 0]) = 1 := by
  have hs2 : l2norm [(2 : ℝ), 0] ≠ 0 := by
    have hs : sumSq [(2 : ℝ), 0] = 4 := by norm_num [sumSq, dot]
    rw [l2norm, hs]
    exact Real.sqrt_ne_zero'.mpr (by norm_num)
  have hs1 : l2norm [(1 : ℝ), 0] ≠ 0 := by
    have hs : sumSq [(1 : ℝ), 0] = 1 := by norm_num [sumSq, dot]
    rw [l2norm, hs]
    exact Real.sqrt_ne_zero'.mpr (by norm_num)
  refine (proto_renormalized_scores_in_unit_interval [("a", [(2 : ℝ), 0])]
      [[(1 : ℝ), 0]] 2 (List.cons_ne_nil _ _) ?_ ?_ ?_ ?_).1 ("a", [(2 : ℝ), 0])
      (List.mem_singleton.mpr rfl)
  · intro t ht
    rw [List.mem_singleton.mp ht]
    rfl
  · intro q hq
    rw [List.mem_singleton.mp hq]
    rfl
  · intro t ht
    rw [List.mem_singleton.mp ht]
    exact hs1
  · intro q hq
    rw [List.mem_singleton.mp hq]
    exact hs2

/-! ## C3 — aggregation methods of the prototype builder -/

/-- C3: on the toy 2-D collection `[1,0], [0,1], [1,1]` the builder returns
the elementwise mean `[2/3, 2/3]` (not renormalised), the elementwise
median `[1, 1]` (not renormalised), and for `centroid` the unit-length
vector `[√2/2, √2/2]` obtained by normalising each input, averaging, and
renormalising. -/
theorem create_query_vector_toy_case :
    create_query_vector .mean [[(1 : ℝ), 0], [0, 1], [1, 1]] = [2 / 3, 2 / 3] ∧
    create_query_vector .median [[(1 : ℝ), 0], [0, 1], [1, 1]] = [1, 1] ∧
    create_query_vector .centroid [[(1 : ℝ), 0], [0, 1], [1, 1]]
      = [Real.sqrt 2 / 2, Real.sqrt 2 / 2] ∧
    l2norm (create_query_vector .centroid [[(1 : ℝ), 0], [0, 1], [1, 1]]) = 1 ∧
    l2norm (create_query_vector .mean [[(1 : ℝ), 0], [0, 1], [1, 1]]) ≠ 1 ∧
    l2norm (create_query_vector .median [[(1 : ℝ), 0], [0, 1], [1, 1]]) ≠ 1 := by
  have hmean : create_query_vector .mean [[(1 : ℝ), 0], [0, 1], [1, 1]]
      = [2 / 3, 2 / 3] := by
    show meanVec _ = _
    norm_num [meanVec, column, List.range_succ]
  have hmed : create_query_vector .median [[(1 : ℝ), 0], [0, 1], [1, 1]] = [1, 1] := by
    show medianVec _ = _
    norm_num [medianVec, medianOfList, column, List.range_succ, List.insertionSort,
      List.orderedInsert]
  have h10 : normalizeVec [(1 : ℝ), 0] = [1, 0] := by
    have hs : sumSq [(1 : ℝ), 0] = 1 := by norm_num [sumSq, dot]
    simp [normalizeVec, l2norm, hs]
  have h01 : normalizeVec [(0 : ℝ), 1] = [0, 1] := by
    have hs : sumSq [(0 : ℝ), 1] = 1 := by norm_num [sumSq, dot]
    simp [normalizeVec, l2norm, hs]
  have h11 : normalizeVec [(1 : ℝ), 1] = [1 / Real.sqrt 2, 1 / Real.sqrt 2] := by
    have hs : sumSq [(1 : ℝ), 1] = 2 := by norm_num [sumSq, dot]
    simp [normalizeVec, l2norm, hs]
  have hsqrt2_pos : 0 < Real.sqrt 2 := Real.sqrt_pos.mpr (by norm_num)
  have hmean2 : meanVec ([[(1 : ℝ), 0], [0, 1], [1, 1]].map normalizeVec)
      = [(1 + 1 / Real.sqrt 2) / 3, (1 + 1 / Real.sqrt 2) / 3] := by
    rw [List.map_cons, List.map_cons, List.map_cons, List.map_nil, h10, h01, h11]
    norm_num [meanVec, column, List.range_succ]
  have hcpos : 0 < (1 + 1 / Real.sqrt 2) / 3 := by positivity
  have hsc : sumSq [(1 + 1 / Real.sqrt 2) / 3, (1 + 1 / Real.sqrt 2) / 3]
      = 2 * ((1 + 1 / Real.sqrt 2) / 3) ^ 2 := by
    simp only [sumSq, dot]
    ring
  have hlc : l2norm [(1 + 1 / Real.sqrt 2) / 3, (1 + 1 / Real.sqrt 2) / 3]
      = Real.sqrt 2 * ((1 + 1 / Real.sqrt 2) / 3) := by
    rw [l2norm, hsc, Real.sqrt_mul (by norm_num : (0 : ℝ) ≤ 2), Real.sqrt_sq hcpos.le]
  have hdiv : (1 + 1 / Real.sqrt 2) / 3 /
      (Real.sqrt 2 * ((1 + 1 / Real.sqrt 2) / 3)) = Real.sqrt 2 / 2 := by
    have hden : (0 : ℝ) < Real.sqrt 2 * ((1 + 1 / Real.sqrt 2) / 3) := by positivity
    rw [div_eq_div_iff hden.ne' (by norm_num : (2 : ℝ) ≠ 0)]
    have h2 : Real.sqrt 2 * Real.sqrt 2 = 2 := Real.mul_self_sqrt (by norm_num)
    rw [← mul_assoc, h2]
    ring
  have hcent : create_query_vector .centroid [[(1 : ℝ), 0], [0, 1], [1, 1]]
      = [Real.sqrt 2 / 2, Real.sqrt 2 / 2] := by
    show normalizeVec (meanVec _) = _
    rw [hmean2]
    simp only [normalizeVec, hlc, List.map_cons, List.map_nil]
    rw [hdiv]
  have hsqq : sumSq [Real.sqrt 2 / 2, Real.sqrt 2 / 2] = 1 := by
    simp only [sumSq, dot]
    rw [div_mul_div_comm, Real.mul_self_sqrt (by norm_num : (0 : ℝ) ≤ 2)]
    norm_num
  refine ⟨hmean, hmed, hcent, ?_, ?_, ?_⟩
  · rw [hcent, l2norm, hsqq, Real.sqrt_one]
  · have hsm : sumSq [(2 : ℝ) / 3, 2 / 3] = 8 / 9 := by norm_num [sumSq, dot]
    rw [hmean, l2norm, hsm, Ne, Real.sqrt_eq_one]
    norm_num
  · have hsm : sumSq [(1 : ℝ), 1] = 2 := by norm_num [sumSq, dot]
    rw [hmed, l2norm, hsm, Ne, Real.sqrt_eq_one]
    norm_num

/-! ## C9 — colour assignment is a function of the class-name set alone -/

/-- Python `sorted(set(xs))` depends only on the set of elements. -/
theorem uniqueSorted_eq_of_toFinset_eq {α : Type} [DecidableEq α] [LinearOrder α]
    {l1 l2 : List α} (h : l1.toFinset = l2.toFinset) :
    uniqueSorted l1 = uniqueSorted l2 := by
  have hperm : List.Perm l1.dedup l2.dedup := by
    refine (List.perm_ext_iff_of_nodup (List.nodup_dedup l1) (List.nodup_dedup l2)).mpr ?_
    intro a
    rw [List.mem_dedup, List.mem_dedup, ← List.mem_toFinset, ← List.mem_toFinset, h]
  have hp : List.Perm (uniqueSorted l1) (uniqueSorted l2) :=
    ((List.perm_insertionSort _ l1.dedup).trans hperm).trans
      (List.perm_insertionSort _ l2.dedup).symm
  exact List.eq_of_perm_of_sorted hp (List.sorted_insertionSort _ _)
    (List.sorted_insertionSort _ _)

/-- C9: when two classification runs discover the same set of distinct
`best_class` names — in any order, with any multiplicities — the generated
class-to-colour mapping is identical, because the colours are HSV hues
evenly distributed over the alphabetically sorted distinct class names. -/
theorem class_colors_function_of_class_set (l1 l2 : List String)
    (h : l1.toFinset = l2.toFinset) :
    class_color_mapping l1 = class_color_mapping l2 ∧
    (uniqueSorted l1).Sorted (· ≤ ·) ∧
    class_color_mapping l1
      = (uniqueSorted l1).zip (generateColorPalette (uniqueSorted l1).length) := by
  refine ⟨?_, List.sorted_insertionSort _ _, rfl⟩
  unfold class_color_mapping
  rw [uniqueSorted_eq_of_toFinset_eq h]

theorem class_colors_function_of_class_set_witness :
    class_color_mapping ["b", "a"] = class_color_mapping ["a", "b", "a"] :=
  (class_colors_function_of_class_set ["b", "a"] ["a", "b", "a"] (by decide)).1

/-! ## C10 — class-name save/load round trip -/

theorem isPrefixOf_append_self (p t : List Char) : p.isPrefixOf (p ++ t) = true := by
  induction p with
  | nil => simp [List.isPrefixOf]
  | cons a ps ih => simp [List.isPrefixOf, ih]

/-- Replacing occurrences by the empty string never adds characters. -/
theorem mem_pyReplaceAux_empty (pat : List Char) :
    ∀ fuel (s : List Char) (x : Char), x ∈ pyReplaceAux pat [] fuel s → x ∈ s := by
  intro fuel
  induction fuel with
  | zero =>
      intro s x hx
      cases s with
      | nil => simp [pyReplaceAux] at hx
      | cons a rest => exact hx
  | succ n ih =>
      intro s x hx
      cases s with
      | nil => simp [pyReplaceAux] at hx
      | cons a rest =>
          by_cases hp : pat ≠ [] ∧ pat.isPrefixOf (a :: rest) = true
          · rw [pyReplaceAux, if_pos hp, List.nil_append] at hx
            exact List.mem_of_mem_drop (ih _ x hx)
          · rw [pyReplaceAux, if_neg hp] at hx
            rcases List.mem_cons.mp hx with rfl | hmem
            · exact List.mem_cons_self _ _
            · exact List.mem_cons_of_mem _ (ih rest x hmem)

/-- If the pattern does not occur, Python replace is the identity. -/
theorem pyReplaceAux_of_not_contains (pat rep : List Char) :
    ∀ fuel (s : List Char), s.length ≤ fuel → containsSeq pat s = false →
      pyReplaceAux pat rep fuel s = s := by
  intro fuel
  induction fuel with
  | zero =>
      intro s hl _
      cases s with
      | nil => rfl
      | cons a rest => simp at hl
  | succ n ih =>
      intro s hl hc
      cases s with
      | nil => rfl
      | cons a rest =>
          rw [containsSeq] at hc
          rw [Bool.or_eq_false_iff] at hc
          rw [pyReplaceAux, if_neg (fun hcontra => by
            rw [hc.1] at hcontra
            exact Bool.false_ne_true hcontra.2)]
          rw [ih rest (by simp only [List.length_cons] at hl; omega) hc.2]

/-- Stripping the `query_` tag from `query_` followed by a tag-free tail
yields exactly the tail. -/
theorem pyReplace_tag_append (t : List Char)
    (hc : containsSeq queryTag t = false) :
    pyReplace queryTag [] (queryTag ++ t) = t := by
  obtain ⟨m, hm, hmge⟩ : ∃ m, (queryTag ++ t).length = m + 1 ∧ t.length ≤ m :=
    ⟨t.length + 5, by simp [queryTag], by omega⟩
  rw [pyReplace, hm]
  rw [show queryTag ++ t = 'q' :: (['u', 'e', 'r', 'y', '_'] ++ t) from rfl]
  rw [pyReplaceAux, if_pos ⟨by simp [queryTag], by
    rw [show ('q' :: (['u', 'e', 'r', 'y', '_'] ++ t)) = queryTag ++ t from rfl]
    exact isPrefixOf_append_self queryTag t⟩]
  rw [List.nil_append]
  rw [show ('q' :: (['u', 'e', 'r', 'y', '_'] ++ t)) = queryTag ++ t from rfl]
  rw [List.drop_left]
  exact pyReplaceAux_of_not_contains queryTag [] m t hmge hc

/-- The three sanitising character replaces collapse to one map. -/
theorem safe_class_name_eq_map (s : List Char) :
    safe_class_name s = s.map sanitizeChar := by
  unfold safe_class_name pyReplaceChar
  rw [List.map_map, List.map_map]
  refine List.map_congr_left ?_
  intro c _
  by_cases h1 : c = ';'
  · subst h1; decide
  by_cases h2 : c = '/'
  · subst h2; decide
  by_cases h3 : c = ' '
  · subst h3; decide
  simp [sanitizeChar, h1, h2, h3]

/-- The recovered class name never contains an underscore, slash or space. -/
theorem recovered_chars (s : List Char) :
    ∀ x ∈ save_load_class_name s, x ≠ '_' ∧ x ≠ '/' ∧ x ≠ ' ' := by
  intro x hx
  unfold save_load_class_name class_name_of_stem pyReplaceChar at hx
  rw [List.mem_map] at hx
  obtain ⟨a, ha, rfl⟩ := hx
  rw [pyReplace] at ha
  have ha2 : a ∈ query_file_stem s := mem_pyReplaceAux_empty queryTag _ _ a ha
  have ha3 : a ≠ '/' ∧ a ≠ ' ' := by
    unfold query_file_stem at ha2
    rw [List.mem_append] at ha2
    rcases ha2 with h | h
    · constructor <;> (intro hh; subst hh; revert h; decide)
    · rw [safe_class_name_eq_map, List.mem_map] at h
      obtain ⟨c, _, rfl⟩ := h
      unfold sanitizeChar
      by_cases hcc : c = ';' ∨ c = '/' ∨ c = ' '
      · rw [if_pos hcc]; exact ⟨by decide, by decide⟩
      · rw [if_neg hcc]
        push_neg at hcc
        exact ⟨hcc.2.1, hcc.2.2⟩
  by_cases haa : a = '_'
  · rw [if_pos haa]
    exact ⟨by decide, by decide, by decide⟩
  · rw [if_neg haa]
    exact ⟨haa, ha3.1, ha3.2⟩

/-- Counterexample to C10 as stated: the class name `query;a` contains no
underscore, slash or space, yet the save/load round trip returns `a`: the
loader removes every occurrence of the substring `query_` from the stem
`query_query_a`, not only the leading tag. -/
theorem class_name_roundtrip_counterexample :
    (∀ c ∈ (['q', 'u', 'e', 'r', 'y', ';', 'a'] : List Char),
        c ≠ '_' ∧ c ≠ '/' ∧ c ≠ ' ') ∧
    save_load_class_name ['q', 'u', 'e', 'r', 'y', ';', 'a'] = ['a'] ∧
    save_load_class_name ['q', 'u', 'e', 'r', 'y', ';', 'a']
      ≠ ['q', 'u', 'e', 'r', 'y', ';', 'a'] := by decide

/-- C10 as amended: the round trip recovers the class name exactly when the
name contains no underscore, slash or space AND its sanitised form contains
no occurrence of the six-character tag `query_` (the loader deletes every
occurrence, not just the prefix of the stem); and for any class name that
does contain an underscore, slash or space, the recovered name differs from
the original. -/
theorem class_name_roundtrip_amended (s : List Char) :
    ((∀ c ∈ s, c ≠ '_' ∧ c ≠ '/' ∧ c ≠ ' ') →
      containsSeq queryTag (safe_class_name s) = false →
      save_load_class_name s = s) ∧
    ((∃ c ∈ s, c = '_' ∨ c = '/' ∨ c = ' ') → save_load_class_name s ≠ s) := by
  constructor
  · intro hs hq
    unfold save_load_class_name class_name_of_stem query_file_stem
    rw [show queryTag ++ safe_class_name s = queryTag ++ safe_class_name s from rfl,
      pyReplace_tag_append (safe_class_name s) hq]
    rw [safe_class_name_eq_map]
    unfold pyReplaceChar
    rw [List.map_map]
    have hid : ∀ c ∈ s,
        ((fun a => if a = '_' then ';' else a) ∘ sanitizeChar) c = id c := by
      intro c hc
      obtain ⟨h1, h2, h3⟩ := hs c hc
      by_cases hsemi : c = ';'
      · subst hsemi; decide
      · have hsan : sanitizeChar c = c := by
          rw [sanitizeChar, if_neg]
          intro hcontra
          rcases hcontra with hh | hh | hh
          · exact hsemi hh
          · exact h2 hh
          · exact h3 hh
        simp only [Function.comp_apply, hsan, id_eq, if_neg h1]
    rw [List.map_congr_left hid, List.map_id]
  · rintro ⟨c, hc, hcase⟩ heq
    have hmem : c ∈ save_load_class_name s := by rw [heq]; exact hc
    have hrec := recovered_chars s c hmem
    rcases hcase with rfl | rfl | rfl
    · exact hrec.1 rfl
    · exact hrec.2.1 rfl
    · exact hrec.2.2 rfl

theorem class_name_roundtrip_amended_witness :
    save_load_class_name ['a', ';', 'b'] = ['a', ';', 'b'] ∧
    save_load_class_name ['a', '_', 'b'] ≠ ['a', '_', 'b'] :=
  ⟨(class_name_roundtrip_amended ['a', ';', 'b']).1 (by decide) (by decide),
   (class_name_roundtrip_amended ['a', '_', 'b']).2 ⟨'_', by decide, by decide⟩⟩

end YoClip
